import Mathlib

/-!
# chash.c: a hash-ordered record chain behind a reader-writer lock

A shallow embedding of `src/chash.c`.

* Names are C strings, given as the list of their bytes (each `1..255`) before
  the terminating NUL.  The `name` array of a `hashRecord` holds 50 bytes:
  `strncpy (node->name, name, 50)` stores the first 50 bytes of the name, with
  a terminating NUL only when the name has fewer than 50 bytes.  The stored
  name of a record is the content of that array.
* `strcmp (current->name, name) == 0` is equality of the stored bytes with the
  bytes of `name`.  For a stored name of fewer than 50 bytes this is what
  `strcmp` computes.  A full array has no terminator and `strcmp` reads on
  behind it; the byte behind the array is taken to be 0 (memory fresh from the
  allocator), so that a name of more than 50 bytes never equals its stored
  50 bytes.  With another byte there the comparison of a full array depends
  on the heap; the statements about found names are made for names of fewer
  than 50 bytes, where nothing depends on it.
* `uint32_t` values are naturals below `2 ^ 32`; every operation that can wrap
  is followed by an explicit reduction modulo `4294967296`.
* The linked list starting at the global `hash_table` is the list of its
  records in traversal order (`next` pointers are the list structure).
* The threads of `thread_function` and `main` are a step function on an
  explicit state: one atomic step per lock operation, counter update and
  chain operation; a schedule is a list of thread identifiers.
-/

namespace Chash

/-! ## Hash function -/

/-- Value of a plain `char` holding the byte `b`.  `chash.c` is a Linux pthread
program; under the x86-64 System V ABI plain `char` is signed, so the bytes from
128 on are negative. -/
def charValue (b : Nat) : Int :=
  if b < 128 then (b : Int) else (b : Int) - 256

/-- Conversion of an `int` to `uint32_t`: reduction modulo `2 ^ 32`. -/
def toUInt32 (i : Int) : Nat :=
  (i % 4294967296).toNat

/-- Body of the loop of `jenkins_one_at_a_time_hash` (lines 89-91) for the
byte `b`: `hash += key[i++]; hash += hash << 10; hash ^= hash >> 6;`. -/
def hashStep (hash : Nat) (b : Nat) : Nat :=
  let h1 := (hash + toUInt32 (charValue b)) % 4294967296
  let h2 := (h1 + (h1 <<< 10) % 4294967296) % 4294967296
  h2 ^^^ (h2 >>> 6)

/-- Lines 94-96: `hash += hash << 3; hash ^= hash >> 11; hash += hash << 15;`. -/
def hashFinish (hash : Nat) : Nat :=
  let h1 := (hash + (hash <<< 3) % 4294967296) % 4294967296
  let h2 := h1 ^^^ (h1 >>> 11)
  (h2 + (h2 <<< 15) % 4294967296) % 4294967296

/-- The function `jenkins_one_at_a_time_hash` (lines 82-98): the loop runs over the
`strlen key` bytes of the key in order, starting from `hash = 0`. -/
def jenkins_one_at_a_time_hash (key : List Nat) : Nat :=
  hashFinish (key.foldl hashStep 0)

/-! ## The record chain -/

/-- The struct `hashRecord` without its `next` pointer; `name` is the content of
the 50-byte array up to its first NUL, or all of it when it holds none. -/
structure hashRecord where
  hash : Nat
  name : List Nat
  salary : Nat
deriving DecidableEq, Repr

/-- The function `create_node` (lines 101-118): the hash is taken over the whole
name (line 112), and `strncpy (node->name, name, 50)` (line 113) stores its
first 50 bytes.  Allocation failure exits the process and is not modelled. -/
def create_node (name : List Nat) (salary : Nat) : hashRecord :=
  { hash := jenkins_one_at_a_time_hash name, name := name.take 50, salary := salary }

/-- The `else` branch of `insert` (lines 133-148) with `current = cur` and
`current->next = rest`: advance while the next record exists and has a smaller
hash; then either overwrite the salary of `current`, when its hash is the hash
of `node` and `strcmp (current->name, name) == 0`, or link `node` after it. -/
def insertScan (cur : hashRecord) (rest : List hashRecord) (node : hashRecord)
    (name : List Nat) : List hashRecord :=
  match rest with
  | nxt :: rest' =>
    if nxt.hash < node.hash then cur :: insertScan nxt rest' node name
    else if cur.hash = node.hash ∧ cur.name = name then
      { cur with salary := node.salary } :: nxt :: rest'
    else cur :: node :: nxt :: rest'
  | [] =>
    if cur.hash = node.hash ∧ cur.name = name then
      [{ cur with salary := node.salary }]
    else [cur, node]

/-- Lines 126-149 of `insert`, with `node` the record made at line 123 and `name`
the argument of `insert`, which line 138 compares with the stored name. -/
def insertNode (hash_table : List hashRecord) (node : hashRecord) (name : List Nat) :
    List hashRecord :=
  match hash_table with
  | [] => [node]
  | head :: rest =>
    if head.hash > node.hash then node :: head :: rest
    else insertScan head rest node name

/-- The function `insert` (lines 121-150) on the chain `hash_table`. -/
def insert (hash_table : List hashRecord) (name : List Nat) (salary : Nat) :
    List hashRecord :=
  insertNode hash_table (create_node name salary) name

/-- Lines 159-176 of `delete` from the record `current` on: skip the records with
a smaller hash, then unlink the record reached when
`strcmp (current->name, name) == 0`. -/
def deleteScan (hash : Nat) (name : List Nat) : List hashRecord → List hashRecord
  | [] => []
  | cur :: rest =>
    if cur.hash < hash then cur :: deleteScan hash name rest
    else if cur.name = name then rest
    else cur :: rest

/-- The function `delete` (lines 153-177). -/
def delete (hash_table : List hashRecord) (name : List Nat) : List hashRecord :=
  deleteScan (jenkins_one_at_a_time_hash name) name hash_table

/-- Lines 185-197 of `search` from the record `current` on: skip the records with
a smaller hash, then return the salary of the record reached when
`strcmp (current->name, name) == 0`, and 0 otherwise. -/
def searchScan (hash : Nat) (name : List Nat) : List hashRecord → Nat
  | [] => 0
  | cur :: rest =>
    if cur.hash < hash then searchScan hash name rest
    else if cur.name = name then cur.salary
    else 0

/-- The function `search` (lines 180-198). -/
def search (hash_table : List hashRecord) (name : List Nat) : Nat :=
  searchScan (jenkins_one_at_a_time_hash name) name hash_table

/-- The lines `print_hash_table` writes (lines 201-209): one `hash,name,salary`
triple per record, in traversal order, the name being the stored one. -/
def print_hash_table (hash_table : List hashRecord) : List (Nat × List Nat × Nat) :=
  hash_table.map (fun r => (r.hash, r.name, r.salary))

/-! ## Sequences of chain operations -/

/-- A chain operation that changes the chain: `insert` or `delete`. -/
inductive Op where
  | ins (name : List Nat) (salary : Nat)
  | del (name : List Nat)
deriving DecidableEq, Repr

/-- Effect of one operation on the chain. -/
def applyOp (hash_table : List hashRecord) : Op → List hashRecord
  | .ins name salary => insert hash_table name salary
  | .del name => delete hash_table name

/-- The chain reached from the empty chain (`hash_table = NULL`) by the
operations `ops`, applied in order. -/
def runOps (ops : List Op) : List hashRecord :=
  ops.foldl applyOp []

/-- The chain reached from the empty chain by inserting the pairs in order. -/
def insertAll (kvs : List (List Nat × Nat)) : List hashRecord :=
  kvs.foldl (fun t kv => insert t kv.1 kv.2) []

/-- Adjacent records are in non-decreasing order of their `hash` field. -/
def HashSorted (hash_table : List hashRecord) : Prop :=
  List.Chain' (fun a b => a.hash ≤ b.hash) hash_table

/-! ## The hash as the specification words it -/

/-- One round of the specification: `acc := (acc + b) mod 2^32;
acc := (acc + acc * 2^10) mod 2^32; acc := acc xor (acc div 2^6)`. -/
def specRound (acc b : Nat) : Nat :=
  let a1 := (acc + b) % 2 ^ 32
  let a2 := (a1 + a1 * 2 ^ 10) % 2 ^ 32
  a2 ^^^ (a2 / 2 ^ 6)

/-- Finalisation of the specification: `acc := (acc + acc * 2^3) mod 2^32;
acc := acc xor (acc div 2^11); acc := (acc + acc * 2^15) mod 2^32`. -/
def specFinal (acc : Nat) : Nat :=
  let a1 := (acc + acc * 2 ^ 3) % 2 ^ 32
  let a2 := a1 ^^^ (a1 / 2 ^ 11)
  (a2 + a2 * 2 ^ 15) % 2 ^ 32

/-- The one-at-a-time hash of the specification over the naturals, each element
of `bytes` entering with its value as given. -/
def specHash (bytes : List Nat) : Nat :=
  specFinal (bytes.foldl specRound 0)

/-- The `uint32_t` that `hash += key[i]` adds for the byte `b`: the byte itself
below 128, and `b + 2^32 - 256` (the sign-extended `char`) from 128 on. -/
def signExtended (b : Nat) : Nat :=
  if b < 128 then b else b + 4294967040

/-! ## Workers and orchestrator -/

/-- The three command kinds `thread_function` distinguishes. -/
inductive CommandType where
  | insert
  | delete
  | search
deriving DecidableEq, Repr

/-- The struct `Command`, as parsed by `main`. -/
structure Command where
  command_type : CommandType
  name : List Nat
  salary : Nat
deriving DecidableEq, Repr

/-- Position of a worker thread inside `thread_function`. -/
inductive Pc where
  /-- thread not created yet -/
  | idle
  /-- created, nothing executed -/
  | start
  /-- inside the loop `while (!inserts_done)`, blocked in `pthread_cond_wait` -/
  | waiting
  /-- before `pthread_rwlock_wrlock` / `pthread_rwlock_rdlock` -/
  | ready
  /-- lock held, `lock_acquisitions` not yet incremented -/
  | locked
  /-- `lock_acquisitions` incremented, chain operation not yet run -/
  | counted
  /-- chain operation done, lock still held -/
  | executed
  /-- lock released, `lock_releases` not yet incremented -/
  | unlocked
  /-- `lock_releases` incremented; the thread has returned -/
  | done
deriving DecidableEq, Repr

/-- Position of the orchestrator inside `main`. -/
inductive MainPc where
  /-- parsing loop (lines 352-399): `k` threads created so far -/
  | spawn (k : Nat)
  /-- first join loop (lines 404-410) at index `j` -/
  | joinInserts (j : Nat)
  /-- before lines 413-416 -/
  | setFlag
  /-- second join loop (lines 419-425) at index `j` -/
  | joinOthers (j : Nat)
  /-- before the two statistics lines (428-429) -/
  | stats
  /-- before `pthread_rwlock_rdlock` (line 432) -/
  | finalLock
  /-- before the increment of `lock_acquisitions` (line 433) -/
  | finalCount
  /-- before `print_hash_table` (line 435) -/
  | dump
  /-- before `pthread_rwlock_unlock` (line 437) -/
  | finalUnlock
  /-- before the increment of `lock_releases` (line 438) -/
  | finalRelease
  /-- after line 438 -/
  | finished
deriving DecidableEq, Repr

/-- Lines of `output.txt` that carry data (the timestamped log lines carry
none and are left out). -/
inductive Line where
  /-- the line `hash,name,salary` of a search that returned non-zero (line 297) -/
  | found (hash : Nat) (name : List Nat) (salary : Nat)
  /-- the line `No Record Found` (line 301) -/
  | notFound
  /-- the two lines of lock statistics (lines 428-429) -/
  | lockStats (acquisitions releases : Nat)
  /-- one line of `print_hash_table` -/
  | record (hash : Nat) (name : List Nat) (salary : Nat)
deriving DecidableEq, Repr

/-- The global variables of `chash.c`; `writer` and `readers` are the state of
the reader-writer lock `lock`.  The two counters are C `int`s, which do not
wrap below `2^31` lock operations. -/
structure Shared where
  hash_table : List hashRecord
  writer : Bool
  readers : Nat
  lock_acquisitions : Nat
  lock_releases : Nat
  inserts_done : Bool
  output : List Line
deriving DecidableEq, Repr

/-- What the search worker prints (lines 294-302). -/
def searchReport (hash_table : List hashRecord) (name : List Nat) : Line :=
  if search hash_table name ≠ 0 then
    Line.found (jenkins_one_at_a_time_hash name) name (search hash_table name)
  else Line.notFound

/-- One atomic step of the worker running `thread_function cmd`, from position
`pc`; `none` when the thread cannot move (not created, blocked on the lock, or
returned). -/
def workerStep (cmd : Command) (pc : Pc) (g : Shared) : Option (Pc × Shared) :=
  match pc with
  | .idle => none
  | .start =>
    match cmd.command_type with
    | .insert => some (.ready, g)
    | _ => if g.inserts_done then some (.ready, g) else some (.waiting, g)
  | .waiting => if g.inserts_done then some (.ready, g) else some (.waiting, g)
  | .ready =>
    match cmd.command_type with
    | .search =>
      if g.writer then none else some (.locked, { g with readers := g.readers + 1 })
    | _ =>
      if g.writer ∨ g.readers ≠ 0 then none else some (.locked, { g with writer := true })
  | .locked => some (.counted, { g with lock_acquisitions := g.lock_acquisitions + 1 })
  | .counted =>
    match cmd.command_type with
    | .insert =>
      some (.executed, { g with hash_table := insert g.hash_table cmd.name cmd.salary })
    | .delete => some (.executed, { g with hash_table := delete g.hash_table cmd.name })
    | .search =>
      some (.executed, { g with output := g.output ++ [searchReport g.hash_table cmd.name] })
  | .executed =>
    match cmd.command_type with
    | .search => some (.unlocked, { g with readers := g.readers - 1 })
    | _ => some (.unlocked, { g with writer := false })
  | .unlocked => some (.done, { g with lock_releases := g.lock_releases + 1 })
  | .done => none

/-- State of the whole process: one position per command, the position of
`main`, and the globals. -/
structure State where
  threads : List Pc
  main : MainPc
  shared : Shared
deriving DecidableEq, Repr

/-- State at the start of the parsing loop: no thread created, globals as
initialised at lines 60-68. -/
def init (cmds : List Command) : State :=
  { threads := List.replicate cmds.length Pc.idle
    main := MainPc.spawn 0
    shared :=
      { hash_table := []
        writer := false
        readers := 0
        lock_acquisitions := 0
        lock_releases := 0
        inserts_done := false
        output := [] } }

/-- One atomic step of `main` over the parsed commands `cmds`; `none` when
`main` is blocked in `pthread_join` or on the lock, or has finished. -/
def mainStep (cmds : List Command) (s : State) : Option State :=
  match s.main with
  | .spawn k =>
    if k < cmds.length then
      some { s with threads := s.threads.set k Pc.start, main := MainPc.spawn (k + 1) }
    else some { s with main := MainPc.joinInserts 0 }
  | .joinInserts j =>
    match cmds[j]? with
    | none => some { s with main := MainPc.setFlag }
    | some c =>
      if c.command_type = CommandType.insert then
        if s.threads[j]? = some Pc.done then some { s with main := MainPc.joinInserts (j + 1) }
        else none
      else some { s with main := MainPc.joinInserts (j + 1) }
  | .setFlag =>
    some { s with main := MainPc.joinOthers 0
                  shared := { s.shared with inserts_done := true } }
  | .joinOthers j =>
    match cmds[j]? with
    | none => some { s with main := MainPc.stats }
    | some c =>
      if c.command_type ≠ CommandType.insert then
        if s.threads[j]? = some Pc.done then some { s with main := MainPc.joinOthers (j + 1) }
        else none
      else some { s with main := MainPc.joinOthers (j + 1) }
  | .stats =>
    some { s with main := MainPc.finalLock
                  shared := { s.shared with output := s.shared.output ++
                    [Line.lockStats s.shared.lock_acquisitions s.shared.lock_releases] } }
  | .finalLock =>
    if s.shared.writer then none
    else some { s with main := MainPc.finalCount
                       shared := { s.shared with readers := s.shared.readers + 1 } }
  | .finalCount =>
    some { s with main := MainPc.dump
                  shared := { s.shared with
                    lock_acquisitions := s.shared.lock_acquisitions + 1 } }
  | .dump =>
    some { s with main := MainPc.finalUnlock
                  shared := { s.shared with output := s.shared.output ++
                    (s.shared.hash_table.map
                      (fun r => Line.record r.hash r.name r.salary)) } }
  | .finalUnlock =>
    some { s with main := MainPc.finalRelease
                  shared := { s.shared with readers := s.shared.readers - 1 } }
  | .finalRelease =>
    some { s with main := MainPc.finished
                  shared := { s.shared with lock_releases := s.shared.lock_releases + 1 } }
  | .finished => none

/-- Thread identifiers: `main`, or the worker of the command at index `i`. -/
inductive Tid where
  | main
  | worker (i : Nat)
deriving DecidableEq, Repr

/-- One step of the thread `t`. -/
def step (cmds : List Command) (s : State) : Tid → Option State
  | .main => mainStep cmds s
  | .worker i =>
    match cmds[i]?, s.threads[i]? with
    | some c, some pc =>
      match workerStep c pc s.shared with
      | some r => some { s with threads := s.threads.set i r.1, shared := r.2 }
      | none => none
    | _, _ => none

/-- The state after the schedule `sched`, when every step in it can be taken. -/
def run (cmds : List Command) (s : State) : List Tid → Option State
  | [] => some s
  | t :: ts =>
    match step cmds s t with
    | some s' => run cmds s' ts
    | none => none

/-- Contribution of a worker at `pc` to `lock_acquisitions`. -/
def acqCount : Pc → Nat
  | .counted | .executed | .unlocked | .done => 1
  | _ => 0

/-- Contribution of a worker at `pc` to `lock_releases`. -/
def relCount : Pc → Nat
  | .done => 1
  | _ => 0

/-- Contribution of `main` to `lock_acquisitions`. -/
def mainAcq : MainPc → Nat
  | .dump | .finalUnlock | .finalRelease | .finished => 1
  | _ => 0

/-- Contribution of `main` to `lock_releases`. -/
def mainRel : MainPc → Nat
  | .finished => 1
  | _ => 0

/-- The worker has left the barrier loop `while (!inserts_done)`. -/
def pastBarrier : Pc → Bool
  | .idle | .start | .waiting => false
  | _ => true

/-- Every insert worker has returned. -/
def insertsFinished (cmds : List Command) (threads : List Pc) : Prop :=
  ∀ (j : Nat) (c : Command), cmds[j]? = some c → c.command_type = CommandType.insert →
    threads[j]? = some Pc.done

/-- The flag `inserts_done` as a function of the position of `main`: set at
lines 413-416 and never written again. -/
def flagSet : MainPc → Bool
  | .spawn _ | .joinInserts _ | .setFlag => false
  | _ => true

/-- Every worker below index `j` whose command kind satisfies `p` has returned. -/
def joinedBelow (cmds : List Command) (threads : List Pc) (p : CommandType → Prop)
    (j : Nat) : Prop :=
  ∀ (i : Nat) (c : Command), i < j → cmds[i]? = some c → p c.command_type →
    threads[i]? = some Pc.done

/-- What `main` knows about the workers at each of its positions. -/
def mainInv (cmds : List Command) (threads : List Pc) : MainPc → Prop
  | .spawn k => ∀ i : Nat, k ≤ i → i < cmds.length → threads[i]? = some Pc.idle
  | .joinInserts j => joinedBelow cmds threads (fun k => k = CommandType.insert) j
  | .setFlag => insertsFinished cmds threads
  | .joinOthers j =>
    insertsFinished cmds threads ∧
      joinedBelow cmds threads (fun k => k ≠ CommandType.insert) j
  | _ => ∀ pc ∈ threads, pc = Pc.done

/-- Invariant of the reachable states. -/
structure Inv (cmds : List Command) (s : State) : Prop where
  len : s.threads.length = cmds.length
  acq : s.shared.lock_acquisitions = (s.threads.map acqCount).sum + mainAcq s.main
  rel : s.shared.lock_releases = (s.threads.map relCount).sum + mainRel s.main
  flag : s.shared.inserts_done = flagSet s.main
  main : mainInv cmds s.threads s.main
  barrier : ∀ (i : Nat) (c : Command) (pc : Pc), cmds[i]? = some c →
    s.threads[i]? = some pc → c.command_type ≠ CommandType.insert →
    pastBarrier pc = true → s.shared.inserts_done = true
  stats : ∀ a r, Line.lockStats a r ∈ s.shared.output →
    a = cmds.length ∧ r = cmds.length

/-! ## Concrete names and commands used in the checks below -/

/-- The C string `alice`. -/
def alice : List Nat := [97, 108, 105, 99, 101]

/-- The C string `bob`. -/
def bob : List Nat := [98, 111, 98]

/-- The C string `carol`. -/
def carol : List Nat := [99, 97, 114, 111, 108]

/-- The C string `aqaa`, whose hash is 415159071. -/
def aqaa : List Nat := [97, 113, 97, 97]

/-- The C string `elue`, whose hash is 415159071 as well. -/
def elue : List Nat := [101, 108, 117, 101]

/-- The script `insert,alice,0`, `search,alice`, `delete,bob`. -/
def sampleCommands : List Command :=
  [⟨CommandType.insert, alice, 0⟩, ⟨CommandType.search, alice, 0⟩,
   ⟨CommandType.delete, bob, 0⟩]

/-- A schedule of `sampleCommands` up to a point where the search worker holds
the read lock: `main` creates the three threads, the insert worker runs to its
end, the search worker finds the flag unset and waits, `main` joins the insert
worker and sets the flag, the search worker wakes up and takes the lock. -/
def sampleBarrierSchedule : List Tid :=
  List.replicate 4 Tid.main ++ List.replicate 6 (Tid.worker 0) ++ [Tid.worker 1] ++
    List.replicate 5 Tid.main ++ List.replicate 2 (Tid.worker 1)

/-- The state reached by `sampleBarrierSchedule`. -/
def sampleBarrierState : State :=
  { threads := [Pc.done, Pc.locked, Pc.start]
    main := MainPc.joinOthers 0
    shared :=
      { hash_table := [⟨1031422857, alice, 0⟩]
        writer := false
        readers := 1
        lock_acquisitions := 1
        lock_releases := 1
        inserts_done := true
        output := [] } }

/-- A complete schedule of `sampleCommands`: after `sampleBarrierSchedule` the
delete worker passes the barrier, the search worker finishes, the delete worker
finishes, and `main` joins both, prints the statistics and dumps the chain. -/
def sampleSchedule : List Tid :=
  sampleBarrierSchedule ++ [Tid.worker 2] ++ List.replicate 4 (Tid.worker 1) ++
    List.replicate 5 (Tid.worker 2) ++ List.replicate 10 Tid.main

/-- The state reached by `sampleSchedule`. -/
def sampleFinalState : State :=
  { threads := [Pc.done, Pc.done, Pc.done]
    main := MainPc.finished
    shared :=
      { hash_table := [⟨1031422857, alice, 0⟩]
        writer := false
        readers := 0
        lock_acquisitions := 4
        lock_releases := 4
        inserts_done := true
        output := [Line.notFound, Line.lockStats 3 3, Line.record 1031422857 alice 0] } }

/-- The schedule in which the workers with the indices `is` run one after the
other, each from its first to its last step. -/
def workersInTurn : List Nat → List Tid
  | [] => []
  | i :: is => List.replicate 6 (Tid.worker i) ++ workersInTurn is

/-- The command at index `i` is an insert. -/
def isInsertAt (cmds : List Command) (i : Nat) : Bool :=
  match cmds[i]? with
  | some c => decide (c.command_type = CommandType.insert)
  | none => false

/-- The sequential schedule of `cmds`: `main` creates every thread, the insert
workers run in turn, `main` joins them and sets the flag, the other workers run
in turn, `main` joins them, prints the statistics and dumps the chain. -/
def sequentialSchedule (cmds : List Command) : List Tid :=
  List.replicate (cmds.length + 1) Tid.main ++
    workersInTurn ((List.range cmds.length).filter (fun i => isInsertAt cmds i)) ++
    List.replicate (cmds.length + 1) Tid.main ++ [Tid.main] ++
    workersInTurn ((List.range cmds.length).filter (fun i => !isInsertAt cmds i)) ++
    List.replicate (cmds.length + 1) Tid.main ++ List.replicate 6 Tid.main

/-! ## Lemmas on the chain operations -/

theorem insertScan_sorted (node : hashRecord) (name : List Nat) :
    ∀ (rest : List hashRecord) (cur : hashRecord),
      HashSorted (cur :: rest) → cur.hash ≤ node.hash →
      HashSorted (insertScan cur rest node name) ∧
        ∃ r tl, insertScan cur rest node name = r :: tl ∧ r.hash = cur.hash := by
  intro rest
  induction rest with
  | nil =>
    intro cur _ hle
    unfold insertScan
    split_ifs with h
    · exact ⟨List.chain'_singleton _, _, _, rfl, rfl⟩
    · refine ⟨?_, _, _, rfl, rfl⟩
      simp [HashSorted, hle]
  | cons nxt rest' ih =>
    intro cur hs hle
    have hs' : cur.hash ≤ nxt.hash ∧ HashSorted (nxt :: rest') := by
      simpa [HashSorted, List.chain'_cons] using hs
    unfold insertScan
    split_ifs with h1 h2
    · obtain ⟨hs2, r, tl, hr, hrh⟩ := ih nxt hs'.2 (Nat.le_of_lt h1)
      refine ⟨?_, _, _, rfl, rfl⟩
      rw [hr]
      rw [hr] at hs2
      simp only [HashSorted, List.chain'_cons] at hs2 ⊢
      exact ⟨by omega, hs2⟩
    · refine ⟨?_, _, _, rfl, rfl⟩
      have := hs'.2
      simp only [HashSorted, List.chain'_cons] at this ⊢
      exact ⟨hs'.1, this⟩
    · refine ⟨?_, _, _, rfl, rfl⟩
      have := hs'.2
      simp only [HashSorted, List.chain'_cons] at this ⊢
      exact ⟨hle, by omega, this⟩

theorem insert_sorted (t : List hashRecord) (name : List Nat) (salary : Nat)
    (hs : HashSorted t) : HashSorted (insert t name salary) := by
  unfold insert insertNode
  cases t with
  | nil => exact List.chain'_singleton _
  | cons head rest =>
    simp only
    split_ifs with h
    · simp only [HashSorted, List.chain'_cons] at hs ⊢
      exact ⟨by omega, hs⟩
    · exact (insertScan_sorted _ _ rest head hs (by omega)).1

theorem deleteScan_sublist (hash : Nat) (name : List Nat) :
    ∀ t : List hashRecord, List.Sublist (deleteScan hash name t) t := by
  intro t
  induction t with
  | nil => exact List.Sublist.refl _
  | cons cur rest ih =>
    unfold deleteScan
    split_ifs
    · exact ih.cons₂ _
    · exact List.sublist_cons_self _ _
    · exact List.Sublist.refl _

theorem hashSorted_sublist {t u : List hashRecord} (hsub : List.Sublist u t)
    (hs : HashSorted t) : HashSorted u := by
  haveI : IsTrans hashRecord (fun a b => a.hash ≤ b.hash) :=
    ⟨fun _ _ _ h1 h2 => Nat.le_trans h1 h2⟩
  unfold HashSorted at hs ⊢
  rw [List.chain'_iff_pairwise] at hs ⊢
  exact hs.sublist hsub

theorem delete_sorted (t : List hashRecord) (name : List Nat)
    (hs : HashSorted t) : HashSorted (delete t name) :=
  hashSorted_sublist (deleteScan_sublist _ _ t) hs

theorem runOps_snoc (ops : List Op) (op : Op) :
    runOps (ops ++ [op]) = applyOp (runOps ops) op := by
  simp [runOps, List.foldl_append]

theorem runOps_sorted (ops : List Op) : HashSorted (runOps ops) := by
  induction ops using List.reverseRecOn with
  | nil => exact List.chain'_nil
  | append_singleton ops op ih =>
    rw [runOps_snoc]
    cases op with
    | ins name salary => exact insert_sorted _ _ _ ih
    | del name => exact delete_sorted _ _ ih

theorem create_node_name (name : List Nat) (v : Nat) (hlen : name.length < 50) :
    (create_node name v).name = name :=
  List.take_of_length_le (Nat.le_of_lt hlen)

theorem deleteScan_absent (hash : Nat) (name : List Nat) :
    ∀ t : List hashRecord, (∀ r ∈ t, r.name ≠ name) → deleteScan hash name t = t := by
  intro t
  induction t with
  | nil => intro _; rfl
  | cons cur rest ih =>
    intro h
    have hc : cur.name ≠ name := h cur (List.mem_cons_self _ _)
    have hr : ∀ r ∈ rest, r.name ≠ name := fun r hr => h r (List.mem_cons_of_mem _ hr)
    unfold deleteScan
    split_ifs
    · rw [ih hr]
    · rfl

theorem searchScan_absent (hash : Nat) (name : List Nat) :
    ∀ t : List hashRecord, (∀ r ∈ t, r.name ≠ name) → searchScan hash name t = 0 := by
  intro t
  induction t with
  | nil => intro _; rfl
  | cons cur rest ih =>
    intro h
    have hc : cur.name ≠ name := h cur (List.mem_cons_self _ _)
    have hr : ∀ r ∈ rest, r.name ≠ name := fun r hr => h r (List.mem_cons_of_mem _ hr)
    unfold searchScan
    split_ifs
    · exact ih hr
    · rfl

/-! ## The two defects of the chain operations, in general form -/

/-- Linking three nodes `x`, `y`, `z` where `z` has the hash of `y` and `x` has a
smaller hash: the third is linked between the two others, whatever the names and
salaries. -/
theorem insertNode_relinks (x y z : hashRecord) (nx ny nz : List Nat)
    (hxy : x.hash < y.hash) (hz : z.hash = y.hash) :
    insertNode (insertNode (insertNode [] x nx) y ny) z nz = [x, z, y] := by
  have h1 : ¬ x.hash > y.hash := by omega
  have h3 : ¬ y.hash < y.hash := by omega
  have h4 : x.hash ≠ y.hash := by omega
  simp [insertNode, insertScan, h1, h3, h4, hz]

/-- Re-inserting a stored name whose record is not the head links a second record
in front of the old one. -/
theorem insert_relinks_stored_name (n1 n2 : List Nat) (a b c : Nat)
    (h : jenkins_one_at_a_time_hash n1 < jenkins_one_at_a_time_hash n2) :
    insertAll [(n1, a), (n2, b), (n2, c)] =
      [create_node n1 a, create_node n2 c, create_node n2 b] := by
  have hxy : (create_node n1 a).hash < (create_node n2 b).hash := h
  have hz : (create_node n2 c).hash = (create_node n2 b).hash := rfl
  have := insertNode_relinks _ _ _ n1 n2 n2 hxy hz
  simpa only [insertAll, List.foldl_cons, List.foldl_nil, insert] using this

/-- Two nodes of equal hash, the stored name of the first being `nx` and not
`ny`: both are stored, the first is found, the second is neither found by the scan
of `search` nor unlinked by the scan of `delete`. -/
theorem scans_miss_second_of_equal_hash (x y : hashRecord) (nx ny : List Nat)
    (hh : x.hash = y.hash) (hx : x.name = nx) (hn : x.name ≠ ny) :
    insertNode (insertNode [] x nx) y ny = [x, y] ∧
      searchScan x.hash nx [x, y] = x.salary ∧
      searchScan y.hash ny [x, y] = 0 ∧
      deleteScan y.hash ny [x, y] = [x, y] := by
  have h1 : ¬ x.hash > y.hash := by omega
  have h2 : ¬ x.hash < y.hash := by omega
  subst hx
  simp [insertNode, insertScan, searchScan, deleteScan, h1, h2, hn]

/-- A stored name behind another stored name of equal hash is not found and not
deleted. -/
theorem search_misses_equal_hash (n1 n2 : List Nat) (v1 v2 : Nat)
    (hlen : n1.length < 50) (hne : n1 ≠ n2)
    (hh : jenkins_one_at_a_time_hash n1 = jenkins_one_at_a_time_hash n2) :
    insertAll [(n1, v1), (n2, v2)] = [create_node n1 v1, create_node n2 v2] ∧
      search (insertAll [(n1, v1), (n2, v2)]) n1 = v1 ∧
      search (insertAll [(n1, v1), (n2, v2)]) n2 = 0 ∧
      delete (insertAll [(n1, v1), (n2, v2)]) n2 = insertAll [(n1, v1), (n2, v2)] := by
  have hx : (create_node n1 v1).hash = (create_node n2 v2).hash := hh
  have hx1 : (create_node n1 v1).name = n1 := create_node_name n1 v1 hlen
  have hn : (create_node n1 v1).name ≠ n2 := by
    rw [hx1]
    exact hne
  obtain ⟨e1, e2, e3, e4⟩ := scans_miss_second_of_equal_hash _ _ n1 n2 hx hx1 hn
  have e0 : insertAll [(n1, v1), (n2, v2)] = [create_node n1 v1, create_node n2 v2] := by
    simpa only [insertAll, List.foldl_cons, List.foldl_nil, insert] using e1
  rw [e0]
  refine ⟨rfl, ?_, ?_, ?_⟩
  · simpa only [search, create_node] using e2
  · simpa only [search, create_node] using e3
  · simpa only [delete, create_node] using e4

/-! ## Lemmas on the hash -/

theorem toUInt32_charValue (b : Nat) (hb : b < 256) :
    toUInt32 (charValue b) = signExtended b := by
  unfold toUInt32 charValue signExtended
  split_ifs <;> omega

theorem hashStep_eq_specRound (hash b : Nat) (hb : b < 256) :
    hashStep hash b = specRound hash (signExtended b) := by
  simp only [hashStep, specRound, toUInt32_charValue b hb, Nat.shiftLeft_eq,
    Nat.shiftRight_eq_div_pow, Nat.add_mod_mod]
  norm_num

theorem hashFinish_eq_specFinal (hash : Nat) : hashFinish hash = specFinal hash := by
  simp only [hashFinish, specFinal, Nat.shiftLeft_eq, Nat.shiftRight_eq_div_pow,
    Nat.add_mod_mod]
  norm_num

theorem foldl_hashStep_eq (key : List Nat) (hb : ∀ b ∈ key, b < 256) :
    ∀ acc, key.foldl hashStep acc = (key.map signExtended).foldl specRound acc := by
  induction key with
  | nil => intro acc; rfl
  | cons b key ih =>
    intro acc
    simp only [List.foldl_cons, List.map_cons]
    rw [hashStep_eq_specRound acc b (hb b (List.mem_cons_self _ _))]
    exact ih (fun c hc => hb c (List.mem_cons_of_mem _ hc)) _

theorem map_signExtended_small (key : List Nat) (hb : ∀ b ∈ key, b < 128) :
    key.map signExtended = key := by
  induction key with
  | nil => rfl
  | cons b key ih =>
    have h1 : b < 128 := hb b (List.mem_cons_self _ _)
    simp only [List.map_cons, signExtended, h1, if_true]
    rw [ih (fun c hc => hb c (List.mem_cons_of_mem _ hc))]

/-! ## Lemmas on the worker protocol -/

theorem workerStep_acq {c : Command} {pc pc' : Pc} {g g' : Shared}
    (h : workerStep c pc g = some (pc', g')) :
    g'.lock_acquisitions + acqCount pc = g.lock_acquisitions + acqCount pc' := by
  cases pc <;> rcases hc : c.command_type <;> simp only [workerStep, hc] at h <;>
    (try split_ifs at h) <;> cases h <;> simp [acqCount]

theorem workerStep_rel {c : Command} {pc pc' : Pc} {g g' : Shared}
    (h : workerStep c pc g = some (pc', g')) :
    g'.lock_releases + relCount pc = g.lock_releases + relCount pc' := by
  cases pc <;> rcases hc : c.command_type <;> simp only [workerStep, hc] at h <;>
    (try split_ifs at h) <;> cases h <;> simp [relCount]

theorem workerStep_flag {c : Command} {pc pc' : Pc} {g g' : Shared}
    (h : workerStep c pc g = some (pc', g')) :
    g'.inserts_done = g.inserts_done := by
  cases pc <;> rcases hc : c.command_type <;> simp only [workerStep, hc] at h <;>
    (try split_ifs at h) <;> cases h <;> rfl

theorem workerStep_barrier {c : Command} {pc pc' : Pc} {g g' : Shared}
    (h : workerStep c pc g = some (pc', g'))
    (hc : c.command_type ≠ CommandType.insert) (hp : pastBarrier pc' = true) :
    pastBarrier pc = true ∨ g.inserts_done = true := by
  cases pc <;> rcases hk : c.command_type <;> simp only [workerStep, hk] at h <;>
    (try split_ifs at h) <;> cases h <;> simp_all [pastBarrier]

theorem workerStep_stats {c : Command} {pc pc' : Pc} {g g' : Shared}
    (h : workerStep c pc g = some (pc', g')) (a r : Nat)
    (hm : Line.lockStats a r ∈ g'.output) : Line.lockStats a r ∈ g.output := by
  cases pc <;> rcases hc : c.command_type <;> simp only [workerStep, hc] at h <;>
    (try split_ifs at h) <;> cases h <;> (try exact hm)
  simp only [List.mem_append, List.mem_singleton, searchReport] at hm
  rcases hm with hm | hm
  · exact hm
  · split_ifs at hm

theorem workerStep_ne_done {c : Command} {pc pc' : Pc} {g g' : Shared}
    (h : workerStep c pc g = some (pc', g')) : pc ≠ Pc.done ∧ pc ≠ Pc.idle := by
  cases pc <;> simp [workerStep] at h ⊢

/-! ## The invariant holds in every reachable state -/

theorem sum_map_set (f : Pc → Nat) :
    ∀ (l : List Pc) (i : Nat) (a b : Pc), l[i]? = some a →
      ((l.set i b).map f).sum + f a = (l.map f).sum + f b := by
  intro l
  induction l with
  | nil => intro i a b h; simp at h
  | cons x l ih =>
    intro i a b h
    cases i with
    | zero =>
      simp only [List.getElem?_cons_zero, Option.some.injEq] at h
      subst h
      simp only [List.set_cons_zero, List.map_cons, List.sum_cons]
      omega
    | succ i =>
      simp only [List.getElem?_cons_succ] at h
      have := ih i a b h
      simp only [List.set_cons_succ, List.map_cons, List.sum_cons]
      omega

theorem sum_map_all_done (f : Pc → Nat) :
    ∀ l : List Pc, (∀ pc ∈ l, pc = Pc.done) → (l.map f).sum = l.length * f Pc.done := by
  intro l
  induction l with
  | nil => intro _; simp
  | cons x l ih =>
    intro h
    have hx : x = Pc.done := h x (List.mem_cons_self _ _)
    have := ih (fun pc hpc => h pc (List.mem_cons_of_mem _ hpc))
    simp only [List.map_cons, List.sum_cons, List.length_cons, this, hx]
    rw [Nat.add_mul]
    omega

theorem set_keeps {l : List Pc} {i j : Nat} {a b q : Pc} (hi : l[i]? = some a)
    (hq : a ≠ q) (hj : l[j]? = some q) : (l.set i b)[j]? = some q := by
  have hne : i ≠ j := by
    rintro rfl
    rw [hi] at hj
    exact hq (Option.some.inj hj)
  rw [List.getElem?_set_ne hne]
  exact hj

theorem inv_init (cmds : List Command) : Inv cmds (init cmds) where
  len := by simp [init]
  acq := by simp [init, acqCount, mainAcq]
  rel := by simp [init, relCount, mainRel]
  flag := rfl
  main := by
    intro i _ hi
    simp [init, hi]
  barrier := by
    intro i c pc _ hpc _ hp
    simp only [init, List.getElem?_replicate] at hpc
    split_ifs at hpc
    cases hpc
    simp [pastBarrier] at hp
  stats := by
    intro a r h
    simp [init] at h

theorem inv_worker {cmds : List Command} {s : State} {i : Nat} {c : Command}
    {pc pc' : Pc} {g' : Shared} (hinv : Inv cmds s) (hc : cmds[i]? = some c)
    (hpc : s.threads[i]? = some pc) (h : workerStep c pc s.shared = some (pc', g')) :
    Inv cmds { s with threads := s.threads.set i pc', shared := g' } where
  len := by simp [hinv.len]
  acq := by
    have h1 := workerStep_acq h
    have h2 := sum_map_set acqCount s.threads i pc pc' hpc
    have h3 := hinv.acq
    simp only
    omega
  rel := by
    have h1 := workerStep_rel h
    have h2 := sum_map_set relCount s.threads i pc pc' hpc
    have h3 := hinv.rel
    simp only
    omega
  flag := by
    simp only
    rw [workerStep_flag h]
    exact hinv.flag
  main := by
    have hne := workerStep_ne_done h
    have hm := hinv.main
    simp only
    cases hmain : s.main <;> rw [hmain] at hm <;> simp only [mainInv] at hm ⊢
    case spawn k => exact fun j hj hjn => set_keeps hpc hne.2 (hm j hj hjn)
    case joinInserts j => exact fun a b hab hb hk => set_keeps hpc hne.1 (hm a b hab hb hk)
    case setFlag => exact fun a b hb hk => set_keeps hpc hne.1 (hm a b hb hk)
    case joinOthers j =>
      exact ⟨fun a b hb hk => set_keeps hpc hne.1 (hm.1 a b hb hk),
        fun a b hab hb hk => set_keeps hpc hne.1 (hm.2 a b hab hb hk)⟩
    all_goals exact absurd (hm pc (List.mem_iff_getElem?.mpr ⟨i, hpc⟩)) hne.1
  barrier := by
    intro j cj q hcj hq hk hp
    simp only at hq ⊢
    rw [workerStep_flag h]
    by_cases hij : i = j
    · subst hij
      have hlt : i < s.threads.length := by
        rcases List.getElem?_eq_some.mp hpc with ⟨hlt, _⟩
        exact hlt
      rw [List.getElem?_set_self hlt] at hq
      cases hq
      rw [hc] at hcj
      cases hcj
      rcases workerStep_barrier h hk hp with hb | hb
      · exact hinv.barrier i c pc hc hpc hk hb
      · exact hb
    · rw [List.getElem?_set_ne hij] at hq
      exact hinv.barrier j cj q hcj hq hk hp
  stats := fun a r hm => hinv.stats a r (workerStep_stats h a r hm)

theorem inv_main {cmds : List Command} {s s' : State} (hinv : Inv cmds s)
    (h : mainStep cmds s = some s') : Inv cmds s' := by
  rcases s with ⟨threads, main, g⟩
  have hlen := hinv.len
  have hacq := hinv.acq
  have hrel := hinv.rel
  have hflag := hinv.flag
  have hmain := hinv.main
  have hbar := hinv.barrier
  have hstats := hinv.stats
  simp only at hlen hacq hrel hflag hmain hbar hstats
  cases main <;> simp only [mainStep] at h
  case spawn k =>
    split_ifs at h with hk <;> cases h
    · have hidle : threads[k]? = some Pc.idle := hmain k (Nat.le_refl k) hk
      refine ⟨by simpa using hlen, ?_, ?_, hflag, ?_, ?_, hstats⟩
      · have := sum_map_set acqCount threads k Pc.idle Pc.start hidle
        simp only [acqCount, mainAcq] at this hacq ⊢
        omega
      · have := sum_map_set relCount threads k Pc.idle Pc.start hidle
        simp only [relCount, mainRel] at this hrel ⊢
        omega
      · intro i hi hin
        simp only
        rw [List.getElem?_set_ne (by omega)]
        exact hmain i (by omega) hin
      · intro j cj q hcj hq hkind hp
        simp only at hq ⊢
        by_cases hkj : k = j
        · subst hkj
          rw [List.getElem?_set_self (by omega)] at hq
          cases hq
          simp [pastBarrier] at hp
        · rw [List.getElem?_set_ne hkj] at hq
          exact hbar j cj q hcj hq hkind hp
    · refine ⟨hlen, hacq, hrel, hflag, ?_, hbar, hstats⟩
      intro i c hi
      omega
  case joinInserts j =>
    split at h
    next hnone =>
      cases h
      refine ⟨hlen, hacq, hrel, hflag, ?_, hbar, hstats⟩
      intro i c hc hkind
      have hj : cmds.length ≤ j := List.getElem?_eq_none_iff.mp hnone
      have hi : i < cmds.length := (List.getElem?_eq_some.mp hc).1
      exact hmain i c (by omega) hc hkind
    next c hsome =>
      split_ifs at h with hk hd <;> cases h
      · refine ⟨hlen, hacq, hrel, hflag, ?_, hbar, hstats⟩
        intro i ci hi hci hkind
        rcases Nat.lt_or_eq_of_le (Nat.le_of_lt_succ hi) with hlt | heq
        · exact hmain i ci hlt hci hkind
        · subst heq
          exact hd
      · refine ⟨hlen, hacq, hrel, hflag, ?_, hbar, hstats⟩
        intro i ci hi hci hkind
        rcases Nat.lt_or_eq_of_le (Nat.le_of_lt_succ hi) with hlt | heq
        · exact hmain i ci hlt hci hkind
        · subst heq
          rw [hsome] at hci
          cases hci
          exact absurd hkind hk
  case setFlag =>
    cases h
    refine ⟨hlen, hacq, hrel, rfl, ⟨hmain, ?_⟩, fun _ _ _ _ _ _ _ => rfl, hstats⟩
    intro i c hi
    omega
  case joinOthers j =>
    split at h
    next hnone =>
      cases h
      refine ⟨hlen, hacq, hrel, hflag, ?_, hbar, hstats⟩
      intro pc hpc
      obtain ⟨i, hi⟩ := List.mem_iff_getElem?.mp hpc
      have hj : cmds.length ≤ j := List.getElem?_eq_none_iff.mp hnone
      have hil : i < cmds.length := by
        have : i < threads.length := (List.getElem?_eq_some.mp hi).1
        omega
      obtain ⟨c, hc⟩ : ∃ c, cmds[i]? = some c := ⟨cmds[i], List.getElem?_eq_getElem hil⟩
      have hdone : threads[i]? = some Pc.done := by
        by_cases hk : c.command_type = CommandType.insert
        · exact hmain.1 i c hc hk
        · exact hmain.2 i c (by omega) hc hk
      rw [hi] at hdone
      exact Option.some.inj hdone
    next c hsome =>
      split_ifs at h with hk hd <;> cases h
      · refine ⟨hlen, hacq, hrel, hflag, ⟨hmain.1, ?_⟩, hbar, hstats⟩
        intro i ci hi hci hkind
        rcases Nat.lt_or_eq_of_le (Nat.le_of_lt_succ hi) with hlt | heq
        · exact hmain.2 i ci hlt hci hkind
        · subst heq
          exact hd
      · refine ⟨hlen, hacq, hrel, hflag, ⟨hmain.1, ?_⟩, hbar, hstats⟩
        intro i ci hi hci hkind
        rcases Nat.lt_or_eq_of_le (Nat.le_of_lt_succ hi) with hlt | heq
        · exact hmain.2 i ci hlt hci hkind
        · subst heq
          rw [hsome] at hci
          cases hci
          exact absurd hkind hk
  case stats =>
    cases h
    refine ⟨hlen, hacq, hrel, hflag, hmain, hbar, ?_⟩
    intro a r hm
    simp only [List.mem_append, List.mem_singleton, Line.lockStats.injEq] at hm
    rcases hm with hm | ⟨rfl, rfl⟩
    · exact hstats a r hm
    · have h1 := sum_map_all_done acqCount threads hmain
      have h2 := sum_map_all_done relCount threads hmain
      simp only [acqCount, relCount, mainAcq, mainRel] at h1 h2 hacq hrel
      omega
  case finalLock =>
    split_ifs at h
    cases h
    exact ⟨hlen, hacq, hrel, hflag, hmain, hbar, hstats⟩
  case finalCount =>
    cases h
    refine ⟨hlen, ?_, hrel, hflag, hmain, hbar, hstats⟩
    simp only [mainAcq] at hacq ⊢
    omega
  case dump =>
    cases h
    refine ⟨hlen, hacq, hrel, hflag, hmain, hbar, ?_⟩
    intro a r hm
    simp only [List.mem_append, List.mem_map] at hm
    rcases hm with hm | ⟨_, _, hm⟩
    · exact hstats a r hm
    · cases hm
  case finalUnlock =>
    cases h
    exact ⟨hlen, hacq, hrel, hflag, hmain, hbar, hstats⟩
  case finalRelease =>
    cases h
    refine ⟨hlen, hacq, ?_, hflag, hmain, hbar, hstats⟩
    simp only [mainRel] at hrel ⊢
    omega
  case finished => cases h

theorem inv_step {cmds : List Command} {s s' : State} {t : Tid} (hinv : Inv cmds s)
    (h : step cmds s t = some s') : Inv cmds s' := by
  cases t with
  | main => exact inv_main hinv h
  | worker i =>
    simp only [step] at h
    split at h
    next c pc hc hpc =>
      split at h
      next r hr =>
        cases h
        exact inv_worker hinv hc hpc hr
      next => cases h
    next => cases h

theorem inv_run {cmds : List Command} :
    ∀ (sched : List Tid) (s s' : State), Inv cmds s → run cmds s sched = some s' →
      Inv cmds s' := by
  intro sched
  induction sched with
  | nil =>
    intro s s' hinv h
    simp only [run, Option.some.injEq] at h
    exact h ▸ hinv
  | cons t ts ih =>
    intro s s' hinv h
    simp only [run] at h
    split at h
    next s1 h1 => exact ih s1 s' (inv_step hinv h1) h
    next => cases h

theorem inv_reachable {cmds : List Command} {sched : List Tid} {s : State}
    (h : run cmds (init cmds) sched = some s) : Inv cmds s :=
  inv_run sched _ _ (inv_init cmds) h

/-! ## Further lemmas for the protocol claims -/

theorem sum_map_le (f g : Pc → Nat) (hfg : ∀ pc, f pc ≤ g pc) :
    ∀ l : List Pc, (l.map f).sum ≤ (l.map g).sum := by
  intro l
  induction l with
  | nil => simp
  | cons x l ih =>
    have := hfg x
    simp only [List.map_cons, List.sum_cons]
    omega

theorem relCount_le_acqCount (pc : Pc) : relCount pc ≤ acqCount pc := by
  cases pc <;> simp [relCount, acqCount]

theorem mainRel_le_mainAcq (m : MainPc) : mainRel m ≤ mainAcq m := by
  cases m <;> simp [mainRel, mainAcq]

theorem insertsFinished_of_all_done {cmds : List Command} {threads : List Pc}
    (hlen : threads.length = cmds.length) (h : ∀ pc ∈ threads, pc = Pc.done) :
    insertsFinished cmds threads := by
  intro j c hc _
  have hj : j < threads.length := by
    have := (List.getElem?_eq_some.mp hc).1
    omega
  rw [List.getElem?_eq_getElem hj]
  exact congrArg some (h _ (List.getElem_mem _))

theorem insertsFinished_of_flag {cmds : List Command} {s : State} (hinv : Inv cmds s)
    (hf : s.shared.inserts_done = true) : insertsFinished cmds s.threads := by
  have hflag := hinv.flag
  have hmain := hinv.main
  have hlen := hinv.len
  rw [hf] at hflag
  cases hm : s.main <;> rw [hm] at hflag hmain <;> simp only [flagSet, mainInv] at hflag hmain
  all_goals first
    | exact absurd hflag (by decide)
    | exact hmain.1
    | exact insertsFinished_of_all_done hlen hmain

theorem mainStep_flag_change {cmds : List Command} {s s' : State}
    (h : mainStep cmds s = some s')
    (hne : s'.shared.inserts_done ≠ s.shared.inserts_done) :
    s.main = MainPc.setFlag ∧ s'.shared.inserts_done = true := by
  rcases s with ⟨threads, main, g⟩
  cases main <;> simp only [mainStep] at h
  case setFlag =>
    cases h
    exact ⟨rfl, rfl⟩
  all_goals (try split at h) <;> (try split_ifs at h) <;> cases h <;>
    exact absurd rfl hne

theorem step_flag_change {cmds : List Command} {s s' : State} {t : Tid}
    (hinv : Inv cmds s) (h : step cmds s t = some s')
    (hne : s'.shared.inserts_done ≠ s.shared.inserts_done) :
    t = Tid.main ∧ s.main = MainPc.setFlag ∧ s'.shared.inserts_done = true ∧
      insertsFinished cmds s.threads := by
  cases t with
  | main =>
    obtain ⟨hm, hs⟩ := mainStep_flag_change h hne
    have hmain := hinv.main
    rw [hm] at hmain
    exact ⟨rfl, hm, hs, hmain⟩
  | worker i =>
    simp only [step] at h
    split at h
    next c pc hc hpc =>
      split at h
      next r hr =>
        cases h
        exact absurd (workerStep_flag hr) hne
      next => cases h
    next => cases h

/-! ## A complete run exists for every command list -/

theorem run_append (cmds : List Command) :
    ∀ (a b : List Tid) (s : State),
      run cmds s (a ++ b) = (run cmds s a).bind (fun s' => run cmds s' b) := by
  intro a
  induction a with
  | nil => intro b s; rfl
  | cons t a ih =>
    intro b s
    simp only [List.cons_append, run]
    cases step cmds s t with
    | none => rfl
    | some s1 => exact ih b s1

theorem run_worker {cmds : List Command} {i : Nat} {c : Command} (s : State)
    (hc : cmds[i]? = some c) (hi : s.threads[i]? = some Pc.start)
    (hw : s.shared.writer = false) (hr : s.shared.readers = 0)
    (hk : c.command_type = CommandType.insert ∨ s.shared.inserts_done = true) :
    ∃ s', run cmds s (List.replicate 6 (Tid.worker i)) = some s' ∧
      s'.threads = s.threads.set i Pc.done ∧ s'.main = s.main ∧
      s'.shared.writer = false ∧ s'.shared.readers = 0 ∧
      s'.shared.inserts_done = s.shared.inserts_done := by
  rcases s with ⟨ts, m, ⟨ht, w, r, a, rl, fl, out⟩⟩
  simp only at hi hw hr hk
  subst hw hr
  have hlt : i < ts.length := (List.getElem?_eq_some.mp hi).1
  cases hkind : c.command_type
  case insert =>
    simp [List.replicate, run, step, hc, hi, workerStep, hkind, hlt]
  case delete =>
    have hf : fl = true := by simpa [hkind] using hk
    subst hf
    simp [List.replicate, run, step, hc, hi, workerStep, hkind, hlt]
  case search =>
    have hf : fl = true := by simpa [hkind] using hk
    subst hf
    simp [List.replicate, run, step, hc, hi, workerStep, hkind, hlt]

theorem run_trans {cmds : List Command} {a b : List Tid} {s s1 s2 : State}
    (h1 : run cmds s a = some s1) (h2 : run cmds s1 b = some s2) :
    run cmds s (a ++ b) = some s2 := by
  rw [run_append, h1]
  exact h2

theorem run_workers {cmds : List Command} (p : CommandType → Prop) :
    ∀ (is : List Nat) (s : State), is.Nodup →
      (∀ i ∈ is, ∃ c, cmds[i]? = some c ∧ p c.command_type ∧
        s.threads[i]? = some Pc.start) →
      s.shared.writer = false → s.shared.readers = 0 →
      (∀ k, p k → k = CommandType.insert ∨ s.shared.inserts_done = true) →
      ∃ s', run cmds s (workersInTurn is) = some s' ∧ s'.main = s.main ∧
        (∀ i ∈ is, s'.threads[i]? = some Pc.done) ∧
        (∀ j, j ∉ is → s'.threads[j]? = s.threads[j]?) ∧
        s'.shared.writer = false ∧ s'.shared.readers = 0 ∧
        s'.shared.inserts_done = s.shared.inserts_done := by
  intro is
  induction is with
  | nil =>
    intro s _ _ hw hr _
    exact ⟨s, rfl, rfl, fun i hi => absurd hi (List.not_mem_nil i), fun _ _ => rfl,
      hw, hr, rfl⟩
  | cons i is ih =>
    intro s hnd hall hw hr hp
    obtain ⟨hni, hnd'⟩ := List.nodup_cons.mp hnd
    obtain ⟨c, hc, hpc, hst⟩ := hall i (List.mem_cons_self _ _)
    obtain ⟨s1, hrun1, hts1, hm1, hw1, hr1, hf1⟩ := run_worker s hc hst hw hr (hp _ hpc)
    have hall1 : ∀ j ∈ is, ∃ c, cmds[j]? = some c ∧ p c.command_type ∧
        s1.threads[j]? = some Pc.start := by
      intro j hj
      obtain ⟨cj, hcj, hpj, hsj⟩ := hall j (List.mem_cons_of_mem _ hj)
      have hne : i ≠ j := fun e => hni (e ▸ hj)
      exact ⟨cj, hcj, hpj, by rw [hts1, List.getElem?_set_ne hne]; exact hsj⟩
    obtain ⟨s2, hrun2, hm2, hd2, ho2, hw2, hr2, hf2⟩ :=
      ih s1 hnd' hall1 hw1 hr1 (fun k hk => by rw [hf1]; exact hp k hk)
    have hlt : i < s.threads.length := (List.getElem?_eq_some.mp hst).1
    refine ⟨s2, run_trans hrun1 hrun2, hm2.trans hm1, ?_, ?_, hw2, hr2, hf2.trans hf1⟩
    · intro j hj
      rcases List.mem_cons.mp hj with rfl | hj'
      · rw [ho2 j hni, hts1, List.getElem?_set_self hlt]
      · exact hd2 j hj'
    · intro j hj
      have hne : i ≠ j := fun e => hj (e ▸ List.mem_cons_self _ _)
      have hj' : j ∉ is := fun e => hj (List.mem_cons_of_mem _ e)
      rw [ho2 j hj', hts1, List.getElem?_set_ne hne]

theorem run_spawn {cmds : List Command} :
    ∀ (d k : Nat) (s : State), k + d = cmds.length → s.main = MainPc.spawn k →
      s.threads.length = cmds.length → (∀ j < k, s.threads[j]? = some Pc.start) →
      ∃ s', run cmds s (List.replicate (d + 1) Tid.main) = some s' ∧
        s'.main = MainPc.joinInserts 0 ∧ s'.shared = s.shared ∧
        ∀ j < cmds.length, s'.threads[j]? = some Pc.start := by
  intro d
  induction d with
  | zero =>
    intro k s hk hm hlen hst
    rcases s with ⟨ts, m, g⟩
    simp only at hm hlen hst
    subst hm
    have hnk : ¬ k < cmds.length := by omega
    refine ⟨⟨ts, MainPc.joinInserts 0, g⟩, ?_, rfl, rfl, fun j hj => hst j (by omega)⟩
    simp [List.replicate, run, step, mainStep, hnk]
  | succ d ih =>
    intro k s hk hm hlen hst
    rcases s with ⟨ts, m, g⟩
    simp only at hm hlen hst
    subst hm
    have hlt : k < cmds.length := by omega
    obtain ⟨s', hrun, hm', hg', hall⟩ :=
      ih (k + 1) ⟨ts.set k Pc.start, MainPc.spawn (k + 1), g⟩ (by omega) rfl
        (by simpa using hlen)
        (by
          intro j hj
          simp only
          by_cases hjk : k = j
          · subst hjk
            exact List.getElem?_set_self (by omega)
          · rw [List.getElem?_set_ne hjk]
            exact hst j (by omega))
    refine ⟨s', ?_, hm', hg', hall⟩
    rw [List.replicate_succ, run]
    simp only [step, mainStep, hlt, if_true]
    exact hrun

theorem run_joinInserts {cmds : List Command} :
    ∀ (d j : Nat) (s : State), j + d = cmds.length → s.main = MainPc.joinInserts j →
      insertsFinished cmds s.threads →
      run cmds s (List.replicate (d + 1) Tid.main) =
        some { s with main := MainPc.setFlag } := by
  intro d
  induction d with
  | zero =>
    intro j s hj hm hfin
    rcases s with ⟨ts, m, g⟩
    simp only at hm hfin
    subst hm
    have hnone : cmds[j]? = none := List.getElem?_eq_none (by omega)
    simp [List.replicate, run, step, mainStep, hnone]
  | succ d ih =>
    intro j s hj hm hfin
    rcases s with ⟨ts, m, g⟩
    simp only at hm hfin
    subst hm
    have hlt : j < cmds.length := by omega
    have hsome : cmds[j]? = some cmds[j] := List.getElem?_eq_getElem hlt
    have hnext := ih (j + 1) ⟨ts, MainPc.joinInserts (j + 1), g⟩ (by omega) rfl hfin
    rw [List.replicate_succ, run]
    by_cases hk : cmds[j].command_type = CommandType.insert
    · have hd : ts[j]? = some Pc.done := hfin j _ hsome hk
      simp only [step, mainStep, hsome, hk, hd, if_true]
      exact hnext
    · simp only [step, mainStep, hsome, hk, if_false]
      exact hnext

theorem run_joinOthers {cmds : List Command} :
    ∀ (d j : Nat) (s : State), j + d = cmds.length → s.main = MainPc.joinOthers j →
      (∀ i < cmds.length, s.threads[i]? = some Pc.done) →
      run cmds s (List.replicate (d + 1) Tid.main) =
        some { s with main := MainPc.stats } := by
  intro d
  induction d with
  | zero =>
    intro j s hj hm hfin
    rcases s with ⟨ts, m, g⟩
    simp only at hm hfin
    subst hm
    have hnone : cmds[j]? = none := List.getElem?_eq_none (by omega)
    simp [List.replicate, run, step, mainStep, hnone]
  | succ d ih =>
    intro j s hj hm hfin
    rcases s with ⟨ts, m, g⟩
    simp only at hm hfin
    subst hm
    have hlt : j < cmds.length := by omega
    have hsome : cmds[j]? = some cmds[j] := List.getElem?_eq_getElem hlt
    have hnext := ih (j + 1) ⟨ts, MainPc.joinOthers (j + 1), g⟩ (by omega) rfl hfin
    have hd : ts[j]? = some Pc.done := hfin j hlt
    rw [List.replicate_succ, run]
    by_cases hk : cmds[j].command_type = CommandType.insert
    · simp only [step, mainStep, hsome, hk, ne_eq, not_true_eq_false, if_false]
      exact hnext
    · simp only [step, mainStep, hsome, hk, hd, ne_eq, not_false_eq_true, if_true]
      exact hnext

theorem run_final (cmds : List Command) (s : State) (hm : s.main = MainPc.stats)
    (hw : s.shared.writer = false) :
    ∃ s', run cmds s (List.replicate 6 Tid.main) = some s' ∧
      s'.main = MainPc.finished := by
  rcases s with ⟨ts, m, ⟨ht, w, r, a, rl, fl, out⟩⟩
  simp only at hm hw
  subst hm hw
  simp [List.replicate, run, step, mainStep]

theorem isInsertAt_true {cmds : List Command} {i : Nat} (h : isInsertAt cmds i = true) :
    ∃ c, cmds[i]? = some c ∧ c.command_type = CommandType.insert := by
  unfold isInsertAt at h
  split at h
  next c hc => exact ⟨c, hc, of_decide_eq_true h⟩
  next => cases h

theorem isInsertAt_false {cmds : List Command} {i : Nat} (hi : i < cmds.length)
    (h : isInsertAt cmds i = false) :
    ∃ c, cmds[i]? = some c ∧ c.command_type ≠ CommandType.insert := by
  unfold isInsertAt at h
  rw [List.getElem?_eq_getElem hi] at h
  exact ⟨cmds[i], List.getElem?_eq_getElem hi, of_decide_eq_false h⟩

theorem isInsertAt_of_insert {cmds : List Command} {i : Nat} {c : Command}
    (hc : cmds[i]? = some c) (hk : c.command_type = CommandType.insert) :
    isInsertAt cmds i = true := by
  unfold isInsertAt
  rw [hc]
  exact decide_eq_true hk

theorem sequential_run_completes (cmds : List Command) :
    ∃ s, run cmds (init cmds) (sequentialSchedule cmds) = some s ∧
      s.main = MainPc.finished := by
  obtain ⟨s1, h1, hm1, hg1, hst1⟩ :=
    @run_spawn cmds cmds.length 0 (init cmds) (by omega) rfl (by simp [init])
      (fun j hj => absurd hj (Nat.not_lt_zero j))
  have hw1 : s1.shared.writer = false := by rw [hg1]; rfl
  have hr1 : s1.shared.readers = 0 := by rw [hg1]; rfl
  obtain ⟨s2, h2, hm2, hd2, ho2, hw2, hr2, _⟩ :=
    run_workers (fun k => k = CommandType.insert)
      ((List.range cmds.length).filter (fun i => isInsertAt cmds i)) s1
      ((List.nodup_range _).filter _)
      (by
        intro i hi
        obtain ⟨hir, hins⟩ := List.mem_filter.mp hi
        obtain ⟨c, hc, hk⟩ := isInsertAt_true hins
        exact ⟨c, hc, hk, hst1 i (List.mem_range.mp hir)⟩)
      hw1 hr1 (fun k hk => Or.inl hk)
  have hfin2 : insertsFinished cmds s2.threads := by
    intro j c hc hk
    have hj : j < cmds.length := (List.getElem?_eq_some.mp hc).1
    exact hd2 j (List.mem_filter.mpr ⟨List.mem_range.mpr hj, isInsertAt_of_insert hc hk⟩)
  have h3 := run_joinInserts cmds.length 0 s2 (by omega) (hm2.trans hm1) hfin2
  have h4 : run cmds { s2 with main := MainPc.setFlag } [Tid.main] =
      some { s2 with main := MainPc.joinOthers 0
                     shared := { s2.shared with inserts_done := true } } := by
    simp [run, step, mainStep]
  obtain ⟨s5, h5, hm5, hd5, ho5, hw5, _, _⟩ :=
    run_workers (fun k => k ≠ CommandType.insert)
      ((List.range cmds.length).filter (fun i => !isInsertAt cmds i))
      { s2 with main := MainPc.joinOthers 0
                shared := { s2.shared with inserts_done := true } }
      ((List.nodup_range _).filter _)
      (by
        intro i hi
        obtain ⟨hir, hins⟩ := List.mem_filter.mp hi
        have hil : i < cmds.length := List.mem_range.mp hir
        have hfalse : isInsertAt cmds i = false := by simpa using hins
        obtain ⟨c, hc, hk⟩ := isInsertAt_false hil hfalse
        refine ⟨c, hc, hk, ?_⟩
        have hnot : i ∉ (List.range cmds.length).filter (fun i => isInsertAt cmds i) := by
          intro hmem
          rw [(List.mem_filter.mp hmem).2] at hfalse
          cases hfalse
        simp only
        rw [ho2 i hnot]
        exact hst1 i hil)
      hw2 hr2 (fun _ _ => Or.inr rfl)
  have hall5 : ∀ i < cmds.length, s5.threads[i]? = some Pc.done := by
    intro i hi
    cases hins : isInsertAt cmds i
    · exact hd5 i (List.mem_filter.mpr ⟨List.mem_range.mpr hi, by simp [hins]⟩)
    · have hnot : i ∉ (List.range cmds.length).filter (fun i => !isInsertAt cmds i) := by
        intro hmem
        have := (List.mem_filter.mp hmem).2
        simp [hins] at this
      rw [ho5 i hnot]
      exact hd2 i (List.mem_filter.mpr ⟨List.mem_range.mpr hi, hins⟩)
  have h6 := run_joinOthers cmds.length 0 s5 (by omega) hm5 hall5
  obtain ⟨s7, h7, hm7⟩ := run_final cmds { s5 with main := MainPc.stats } rfl hw5
  exact ⟨s7,
    run_trans (run_trans (run_trans (run_trans (run_trans (run_trans h1 h2) h3) h4) h5) h6)
      h7, hm7⟩

/-! ## The claims -/

/-- C1: evaluation of `insert` where a stored name is re-inserted while its record is
not the head of the chain.  After `insert alice 100`, `insert bob 200`,
`insert bob 250` the dump lists three records, two of them named `bob` (the new
value 250 in front of the old value 200): the overwrite test of line 138 looks at
the stop record `current` and not at `current->next`, so the re-insert links a
second record.  Re-inserting the head (`alice`) does overwrite in place. -/
theorem insert_duplicates_non_head_name :
    print_hash_table (insertAll [(alice, 100), (bob, 200), (bob, 250)]) =
        [(1031422857, alice, 100), (4065264892, bob, 250), (4065264892, bob, 200)] ∧
      ((insertAll [(alice, 100), (bob, 200), (bob, 250)]).filter
        (fun r => r.name = bob)).length = 2 ∧
      print_hash_table (insertAll [(alice, 100), (bob, 200), (alice, 150)]) =
        [(1031422857, alice, 150), (4065264892, bob, 200)] := by
  decide

/-- C2: every chain reached from the empty chain by inserts and deletes is
non-decreasing by the stored hash between adjacent records, and `insert` and
`delete` each keep a hash-sorted chain hash-sorted. -/
theorem order_invariant :
    (∀ ops : List Op, HashSorted (runOps ops)) ∧
      (∀ (t : List hashRecord) (name : List Nat) (salary : Nat),
        HashSorted t → HashSorted (insert t name salary)) ∧
      (∀ (t : List hashRecord) (name : List Nat),
        HashSorted t → HashSorted (delete t name)) :=
  ⟨runOps_sorted, insert_sorted, delete_sorted⟩

/-- Witness of C2 on the chain of `alice` and `bob` and on two hand-made sorted
chains. -/
theorem order_invariant_witness :
    HashSorted (runOps [Op.ins bob 200, Op.ins alice 100, Op.del bob]) ∧
      (HashSorted [⟨1, alice, 5⟩, ⟨7, bob, 6⟩] ∧
        HashSorted (insert [⟨1, alice, 5⟩, ⟨7, bob, 6⟩] carol 3)) ∧
      (HashSorted [⟨1, alice, 5⟩, ⟨7, bob, 6⟩] ∧
        HashSorted (delete [⟨1, alice, 5⟩, ⟨7, bob, 6⟩] alice)) :=
  ⟨order_invariant.1 _,
    ⟨by simp [HashSorted], order_invariant.2.1 _ _ _ (by simp [HashSorted])⟩,
    ⟨by simp [HashSorted], order_invariant.2.2 _ _ (by simp [HashSorted])⟩⟩

/-- C3: evaluation of `delete` on a reachable chain that holds the name twice.
After `insert alice 100`, `insert carol 300`, `insert carol 350`, `delete carol`
the chain still holds the record `carol` with salary 300 and `search carol`
returns 300 instead of 0: `delete` unlinks one record, and the second `carol`
record was linked by the re-insert.  The scenario of the specification
(`insert carol 300`, `delete carol` on the empty chain) does leave no `carol`
record and `search carol` returns 0. -/
theorem delete_leaves_duplicate_name :
    runOps [Op.ins alice 100, Op.ins carol 300, Op.ins carol 350, Op.del carol] =
        [⟨1031422857, alice, 100⟩, ⟨3730438307, carol, 300⟩] ∧
      search
        (runOps [Op.ins alice 100, Op.ins carol 300, Op.ins carol 350, Op.del carol])
        carol = 300 ∧
      runOps [Op.ins carol 300, Op.del carol] = [] ∧
      search (runOps [Op.ins carol 300, Op.del carol]) carol = 0 := by
  decide

/-- C5: on every chain, sorted or not, `delete` of a name that no record carries
returns the chain unchanged, and so does a second `delete` of that name. -/
theorem delete_absent_noop (t : List hashRecord) (name : List Nat)
    (h : ∀ r ∈ t, r.name ≠ name) :
    delete t name = t ∧ delete (delete t name) name = t := by
  have h1 : delete t name = t := deleteScan_absent _ name t h
  exact ⟨h1, by rw [h1, h1]⟩

/-- Witness of C5 on a chain that is not sorted by hash. -/
theorem delete_absent_noop_witness :
    (∀ r ∈ [(⟨9, bob, 1⟩ : hashRecord), ⟨3, alice, 2⟩], r.name ≠ carol) ∧
      delete [(⟨9, bob, 1⟩ : hashRecord), ⟨3, alice, 2⟩] carol =
        [⟨9, bob, 1⟩, ⟨3, alice, 2⟩] ∧
      delete (delete [(⟨9, bob, 1⟩ : hashRecord), ⟨3, alice, 2⟩] carol) carol =
        [⟨9, bob, 1⟩, ⟨3, alice, 2⟩] :=
  ⟨by decide, delete_absent_noop _ carol (by decide)⟩

/-- C6: evaluation of `search` on two stored names with one hash.  The names `aqaa`
and `elue` differ and both hash to 415159071; after `insert aqaa 1`,
`insert elue 2` the chain holds both records and `search aqaa` returns 1, but
`search elue` returns 0: the scan stops at the first record whose hash is not
smaller, compares that one name, and does not look further. -/
theorem search_misses_colliding_name :
    aqaa ≠ elue ∧
      jenkins_one_at_a_time_hash aqaa = 415159071 ∧
      jenkins_one_at_a_time_hash elue = 415159071 ∧
      insertAll [(aqaa, 1), (elue, 2)] =
        [⟨415159071, aqaa, 1⟩, ⟨415159071, elue, 2⟩] ∧
      search (insertAll [(aqaa, 1), (elue, 2)]) aqaa = 1 ∧
      search (insertAll [(aqaa, 1), (elue, 2)]) elue = 0 := by
  decide

/-- C7, as stated, fails: for the one-byte name `0xC8` the code adds the `char`
value `-56`, and the hash is 2622161007, while the bytes-as-unsigned formula of the
specification gives 1186303282. -/
theorem hash_byte_200_differs :
    jenkins_one_at_a_time_hash [200] = 2622161007 ∧ specHash [200] = 1186303282 ∧
      jenkins_one_at_a_time_hash [200] ≠ specHash [200] := by
  decide

/-- C7, amended: for every name (bytes below 256) the hash is the one-at-a-time
value of the specification computed over the bytes as `char` values converted to
`uint32_t`, that is each byte below 128 as itself and each byte `b` from 128 on
as `b + 2^32 - 256`; hence for a name with all bytes below 128 it is the
specification's value over the bytes themselves; and the empty name hashes
to 0. -/
theorem hash_is_one_at_a_time_over_chars (key : List Nat) (hb : ∀ b ∈ key, b < 256) :
    jenkins_one_at_a_time_hash key = specHash (key.map signExtended) ∧
      ((∀ b ∈ key, b < 128) → jenkins_one_at_a_time_hash key = specHash key) ∧
      jenkins_one_at_a_time_hash [] = 0 := by
  have h1 : jenkins_one_at_a_time_hash key = specHash (key.map signExtended) := by
    unfold jenkins_one_at_a_time_hash specHash
    rw [foldl_hashStep_eq key hb 0, hashFinish_eq_specFinal]
  refine ⟨h1, ?_, by decide⟩
  intro hs
  rw [h1, map_signExtended_small key hs]

/-- Witness of amended C7 on the name `alice` followed by the byte `0xC8`, and on
`alice`. -/
theorem hash_is_one_at_a_time_over_chars_witness :
    (∀ b ∈ alice ++ [200], b < 256) ∧
      jenkins_one_at_a_time_hash (alice ++ [200]) =
        specHash ((alice ++ [200]).map signExtended) ∧
      (∀ b ∈ alice, b < 128) ∧ jenkins_one_at_a_time_hash alice = specHash alice :=
  ⟨by decide, (hash_is_one_at_a_time_over_chars (alice ++ [200]) (by decide)).1,
    by decide, (hash_is_one_at_a_time_over_chars alice (by decide)).2.1 (by decide)⟩

/-- C8: in every reachable state of the worker protocol, `lock_acquisitions` is the
number of workers that have executed their one increment of it (plus one once
`main` has executed its own), `lock_releases` likewise, and releases never exceed
acquisitions; every worker step changes each counter by exactly the change of that
worker's contribution, which is 0 at the start and 1 at the end of every worker,
whatever its command; the printed statistics are both the number of commands
(all workers have returned by then), and after the final dump both counters are
the number of commands plus one.  Such a state exists for every command list: the
sequential schedule runs to the end of `main`. -/
theorem lock_balance (cmds : List Command) (sched : List Tid) (s : State)
    (h : run cmds (init cmds) sched = some s) :
    s.shared.lock_acquisitions = (s.threads.map acqCount).sum + mainAcq s.main ∧
      s.shared.lock_releases = (s.threads.map relCount).sum + mainRel s.main ∧
      s.shared.lock_releases ≤ s.shared.lock_acquisitions ∧
      (∀ (c : Command) (pc pc' : Pc) (g' : Shared),
        workerStep c pc s.shared = some (pc', g') →
          g'.lock_acquisitions + acqCount pc = s.shared.lock_acquisitions + acqCount pc' ∧
          g'.lock_releases + relCount pc = s.shared.lock_releases + relCount pc') ∧
      (∀ a r, Line.lockStats a r ∈ s.shared.output →
        a = cmds.length ∧ r = cmds.length) ∧
      (s.main = MainPc.stats →
        (∀ pc ∈ s.threads, pc = Pc.done) ∧
          s.shared.lock_acquisitions = cmds.length ∧
          s.shared.lock_releases = cmds.length) ∧
      (s.main = MainPc.finished →
        (∀ pc ∈ s.threads, pc = Pc.done) ∧
          s.shared.lock_acquisitions = cmds.length + 1 ∧
          s.shared.lock_releases = cmds.length + 1) ∧
      (∃ s', run cmds (init cmds) (sequentialSchedule cmds) = some s' ∧
        s'.main = MainPc.finished) := by
  have hinv := inv_reachable h
  have hacq := hinv.acq
  have hrel := hinv.rel
  have hlen := hinv.len
  have hmain := hinv.main
  refine ⟨hacq, hrel, ?_, fun c pc pc' g' hw => ⟨workerStep_acq hw, workerStep_rel hw⟩,
    hinv.stats, ?_, ?_, sequential_run_completes cmds⟩
  · have h1 := sum_map_le relCount acqCount relCount_le_acqCount s.threads
    have h2 := mainRel_le_mainAcq s.main
    omega
  · intro hm
    rw [hm] at hmain hacq hrel
    simp only [mainInv] at hmain
    have h1 := sum_map_all_done acqCount s.threads hmain
    have h2 := sum_map_all_done relCount s.threads hmain
    simp only [acqCount, relCount, mainAcq, mainRel] at h1 h2 hacq hrel
    exact ⟨hmain, by omega, by omega⟩
  · intro hm
    rw [hm] at hmain hacq hrel
    simp only [mainInv] at hmain
    have h1 := sum_map_all_done acqCount s.threads hmain
    have h2 := sum_map_all_done relCount s.threads hmain
    simp only [acqCount, relCount, mainAcq, mainRel] at h1 h2 hacq hrel
    exact ⟨hmain, by omega, by omega⟩

/-- Witness of C8: the complete schedule of the three sample commands (an insert,
a search that finds nothing to report, a delete of an absent name) ends with
both counters at 4, after statistics `3 3`. -/
theorem lock_balance_witness :
    run sampleCommands (init sampleCommands) sampleSchedule = some sampleFinalState ∧
      sampleFinalState.shared.lock_releases ≤ sampleFinalState.shared.lock_acquisitions ∧
      (∀ a r, Line.lockStats a r ∈ sampleFinalState.shared.output →
        a = sampleCommands.length ∧ r = sampleCommands.length) ∧
      (sampleFinalState.main = MainPc.finished →
        (∀ pc ∈ sampleFinalState.threads, pc = Pc.done) ∧
          sampleFinalState.shared.lock_acquisitions = sampleCommands.length + 1 ∧
          sampleFinalState.shared.lock_releases = sampleCommands.length + 1) :=
  have hw := lock_balance sampleCommands sampleSchedule sampleFinalState (by decide)
  ⟨by decide, hw.2.2.1, hw.2.2.2.2.1, hw.2.2.2.2.2.2.1⟩

/-- C9: in every reachable state, a delete or search worker that has left the
barrier loop implies that `inserts_done` is set and that every insert worker has
returned; the flag is false initially; a step that changes the flag is the step
of `main` at lines 413-416, taken when every insert worker has returned, and it
sets the flag; no step resets it; and a delete or search worker leaves the
barrier loop only in a state where the flag is set. -/
theorem phase_separation (cmds : List Command) (sched : List Tid) (s : State)
    (h : run cmds (init cmds) sched = some s) :
    (∀ (i : Nat) (c : Command) (pc : Pc), cmds[i]? = some c → s.threads[i]? = some pc →
        c.command_type ≠ CommandType.insert → pastBarrier pc = true →
        s.shared.inserts_done = true ∧ insertsFinished cmds s.threads) ∧
      (init cmds).shared.inserts_done = false ∧
      (∀ (t : Tid) (s' : State), step cmds s t = some s' →
        s'.shared.inserts_done ≠ s.shared.inserts_done →
        t = Tid.main ∧ s.main = MainPc.setFlag ∧ s'.shared.inserts_done = true ∧
          insertsFinished cmds s.threads) ∧
      (∀ (t : Tid) (s' : State), step cmds s t = some s' →
        s.shared.inserts_done = true → s'.shared.inserts_done = true) ∧
      (∀ (c : Command) (pc pc' : Pc) (g' : Shared),
        workerStep c pc s.shared = some (pc', g') →
        c.command_type ≠ CommandType.insert → pastBarrier pc = false →
        pastBarrier pc' = true → s.shared.inserts_done = true) := by
  have hinv := inv_reachable h
  refine ⟨?_, rfl, fun t s' hs hne => step_flag_change hinv hs hne, ?_, ?_⟩
  · intro i c pc hc hpc hk hp
    have hf := hinv.barrier i c pc hc hpc hk hp
    exact ⟨hf, insertsFinished_of_flag hinv hf⟩
  · intro t s' hs hf
    by_cases hne : s'.shared.inserts_done = s.shared.inserts_done
    · rw [hne]
      exact hf
    · exact (step_flag_change hinv hs hne).2.2.1
  · intro c pc pc' g' hw hk hp hp'
    rcases workerStep_barrier hw hk hp' with hb | hb
    · rw [hp] at hb
      cases hb
    · exact hb

/-- Witness of C9: in the sample run the search worker holds the read lock only
after the flag is set and the insert worker has returned. -/
theorem phase_separation_witness :
    run sampleCommands (init sampleCommands) sampleBarrierSchedule =
        some sampleBarrierState ∧
      sampleCommands[1]? = some ⟨CommandType.search, alice, 0⟩ ∧
      sampleBarrierState.threads[1]? = some Pc.locked ∧
      sampleBarrierState.shared.inserts_done = true ∧
      insertsFinished sampleCommands sampleBarrierState.threads :=
  ⟨by decide, by decide, by decide,
    (phase_separation sampleCommands sampleBarrierSchedule sampleBarrierState
      (by decide)).1 1 ⟨CommandType.search, alice, 0⟩ Pc.locked (by decide) (by decide)
      (by decide) (by decide)⟩

/-- C10: `search` returns 0 for a name that no record carries, and also for a name
stored with salary 0; the search worker prints the result line exactly when the
returned value is non-zero, so in both cases it prints `No Record Found`. -/
theorem search_zero_is_ambiguous (t : List hashRecord) (name : List Nat)
    (h : ∀ r ∈ t, r.name ≠ name) :
    search t name = 0 ∧ search (insert [] name 0) name = 0 ∧
      (∀ (u : List hashRecord) (n : List Nat),
        searchReport u n = Line.notFound ↔ search u n = 0) ∧
      searchReport t name = Line.notFound ∧
      searchReport (insert [] name 0) name = Line.notFound ∧
      (∀ g : Shared, g.hash_table = insert [] name 0 →
        workerStep ⟨CommandType.search, name, 0⟩ Pc.counted g =
          some (Pc.executed, { g with output := g.output ++ [Line.notFound] })) := by
  have h1 : search t name = 0 := searchScan_absent _ name t h
  have h2 : search (insert [] name 0) name = 0 := by
    simp [search, insert, insertNode, create_node, searchScan]
  have h3 : ∀ (u : List hashRecord) (n : List Nat),
      searchReport u n = Line.notFound ↔ search u n = 0 := by
    intro u n
    unfold searchReport
    split_ifs with hz
    · simp [hz]
    · simp only [ne_eq, not_not] at hz
      simp [hz]
  refine ⟨h1, h2, h3, (h3 _ _).mpr h1, (h3 _ _).mpr h2, ?_⟩
  intro g hg
  have h5 : searchReport g.hash_table name = Line.notFound := by
    rw [hg]
    exact (h3 _ _).mpr h2
  simp only [workerStep, h5]

/-- Witness of C10: `carol` is absent from the chain holding `alice` with salary
0, and both the search for `carol` and the search for the stored `alice` give 0
and the line `No Record Found`. -/
theorem search_zero_is_ambiguous_witness :
    (∀ r ∈ insert [] alice 0, r.name ≠ carol) ∧
      search (insert [] alice 0) carol = 0 ∧
      search (insert [] alice 0) alice = 0 ∧
      searchReport (insert [] alice 0) carol = Line.notFound ∧
      searchReport (insert [] alice 0) alice = Line.notFound :=
  have hc := search_zero_is_ambiguous (insert [] alice 0) carol (by decide)
  have ha := search_zero_is_ambiguous [] alice (by decide)
  ⟨by decide, hc.1, ha.2.1, hc.2.2.2.1, ha.2.2.2.2.1⟩

end Chash
